import Mathlib

/-!
Shallow embedding of `src/csv-to-biiif.ts` (biiif CSV-to-hierarchy converter).

The TypeScript source is translated function by function:
* JS string builtins (`split`, `startsWith`, `includes`, `toLowerCase`,
  `trim`, `parseInt`, `parseFloat`) and the node `path` helpers
  (`basename`, `extname`) are modelled on `List Char` / `String`.
* `processRecord` is modelled as a pure function from a CSV row, the
  scanned file map and two probe oracles (for `sharp` and `ffprobe`) to a
  list of filesystem/diagnostic effects, mirroring the order of the
  side-effecting calls in the source.
* Warnings (`warn` / `console.warn` call sites) are modelled structurally,
  one constructor per call site, carrying the interpolated data.
-/

set_option maxHeartbeats 1000000

/-- Whitespace characters recognised by the model of `String.prototype.trim`. -/
def isSpaceChar (c : Char) : Bool := c == ' ' || c == '\t' || c == '\n' || c == '\r'

/-- Model of `String.prototype.trim` (drop leading and trailing whitespace). -/
def jsTrim (s : String) : String :=
  String.mk (((s.data.dropWhile isSpaceChar).reverse.dropWhile isSpaceChar).reverse)

/-- Split a character list at every occurrence of the separator, keeping empty
pieces, exactly as JS `String.prototype.split` with a one-character separator
(`"".split(c) = [""]`, `"/a".split('/') = ["", "a"]`). Never returns `[]`. -/
def splitOnChar (sep : Char) : List Char → List (List Char)
  | [] => [[]]
  | x :: xs =>
    let r := splitOnChar sep xs
    if x == sep then [] :: r
    else
      match r with
      | [] => [[x]]
      | h :: t => (x :: h) :: t

/-- Model of JS `s.split(sep)` for a single-character separator. -/
def jsSplit (sep : Char) (s : String) : List String :=
  (splitOnChar sep s.data).map String.mk

/-- Model of JS `s.startsWith(p)`. -/
def jsStartsWith (s p : String) : Bool := p.data.isPrefixOf s.data

/-- Substring search used to model JS `s.includes(pat)`. -/
def occursIn (pat : List Char) : List Char → Bool
  | [] => pat.isEmpty
  | c :: rest => pat.isPrefixOf (c :: rest) || occursIn pat rest

/-- Model of JS `s.includes(pat)`. -/
def strContains (s pat : String) : Bool := occursIn pat.data s.data

/-- Lowercase every character (model of JS `toLowerCase` for the ASCII data
handled by this program). -/
def lowerL (l : List Char) : List Char := l.map Char.toLower

/-- Model of node `path.basename`: the part after the last `/` (the program
only ever applies it to file paths produced by `glob` with `nodir:true`, so
trailing-slash handling is irrelevant). -/
def basenameL (cs : List Char) : List Char :=
  (cs.reverse.takeWhile (fun c => !(c == '/'))).reverse

/-- Model of node `path.extname`: the suffix of the basename starting at its
last `.`, or `[]` when there is no dot or the only dot is the leading
character of the basename (dot-files have no extension). -/
def extnameL (cs : List Char) : List Char :=
  let b := basenameL cs
  let r := b.reverse
  let pre := r.takeWhile (fun c => !(c == '.'))
  match r.dropWhile (fun c => !(c == '.')) with
  | [] => []
  | _ :: rest => if rest.isEmpty then [] else '.' :: pre.reverse

/-- Model of `extname(file).toLowerCase()` as used throughout the source. -/
def extLower (file : String) : String := String.mk (lowerL (extnameL file.data))

/-- Model of `basename(file).toLowerCase()` (the `fileNameLower` of the
matching code). -/
def lowerBase (file : String) : List Char := lowerL (basenameL file.data)

/-- Numeric value of a decimal digit character. -/
def digitVal (c : Char) : Nat := c.toNat - '0'.toNat

/-- Value of a digit run, most significant digit first. -/
def digitsToNat (ds : List Char) : Nat := ds.foldl (fun a c => a * 10 + digitVal c) 0

/-- Model of JS `parseInt` on the argument strings arising in this program
(no leading whitespace or sign): parse the leading digit run; `none` models
`NaN` when the string does not start with a digit. -/
def jsParseIntL (cs : List Char) : Option Nat :=
  let ds := cs.takeWhile Char.isDigit
  if ds.isEmpty then none else some (digitsToNat ds)

/-- Model of JS `parseFloat` on unsigned decimal strings (`"12"`, `"12.5"`):
`none` models `NaN`. -/
def jsParseFloatL (cs : List Char) : Option Rat :=
  let ipart := cs.takeWhile Char.isDigit
  let rest := cs.dropWhile Char.isDigit
  if ipart.isEmpty then none
  else
    match rest with
    | '.' :: r2 =>
      let fpart := r2.takeWhile Char.isDigit
      some ((digitsToNat ipart : Rat) + (digitsToNat fpart : Rat) / ((10 : Rat) ^ fpart.length))
    | _ => some ((digitsToNat ipart : Rat))

/-- JS truthiness of a string value (`""` is falsy). -/
def truthyStr (s : String) : Bool := !(s == "")

/-- Value of the `width`/`height` cell of a row.  After CSV parsing the value
is a string; `addFileMetadata` may overwrite it with the number returned by
`sharp` (`metadata.width` can be `undefined`, modelled by `fromProbe none`). -/
inductive WCell where
  | unset
  | fromCsv (s : String)
  | fromProbe (v : Option Nat)
deriving DecidableEq

/-- JS truthiness of a `width`/`height` cell (`undefined`, `""`, `0` and
`NaN` are falsy). -/
def WCell.truthy : WCell → Bool
  | .unset => false
  | .fromCsv s => truthyStr s
  | .fromProbe none => false
  | .fromProbe (some w) => !(w == 0)

/-- Value of the `duration` cell of a row. `fromProbe none` models the `NaN`
produced by `Number(undefined)`. -/
inductive DCell where
  | unset
  | fromCsv (s : String)
  | fromProbe (v : Option Rat)
deriving DecidableEq

/-- JS truthiness of a `duration` cell. -/
def DCell.truthy : DCell → Bool
  | .unset => false
  | .fromCsv s => truthyStr s
  | .fromProbe none => false
  | .fromProbe (some q) => !(q == 0)

/-- A parsed CSV row (`CSVRow` in the source).  The fixed columns are named
fields; `extra` holds the dynamic dotted keys (`metadata.*`,
`provider.*`, ..., `requiredStatement.*`) in CSV column order.  An absent
column and an empty cell are both modelled by `""` (both are falsy in JS,
which is the only property the source ever uses). -/
structure Row where
  hierarchy : String
  label : String
  description : String
  attribution : String
  behavior : String
  width : WCell
  height : WCell
  duration : DCell
  viewingHint : String
  viewingDirection : String
  navDate : String
  summary : String
  extra : List (String × String)
deriving DecidableEq

/-- Dynamic-key lookup on a row (`record['provider.id']` etc.), `""` when the
key is absent. -/
def getE (r : Row) (k : String) : String :=
  ((r.extra.find? (fun kv => kv.1 == k)).map Prod.snd).getD ""

/-- Result of a successful `sharp(file).metadata()` call: the pixel
dimensions, each possibly `undefined`. -/
structure ImageMeta where
  width : Option Nat
  height : Option Nat
deriving DecidableEq

/-- Result of an `ffprobe` call: `probeFail` models a thrown error,
`noStreams` a falsy `info`/empty `info.streams`, and `ok d` a first stream
whose `Number(duration)` is `d` (`none` = `NaN`). -/
inductive MediaRes where
  | probeFail
  | noStreams
  | ok (duration : Option Rat)
deriving DecidableEq

/-- One warning, per `warn`/`console.warn` call site of `processRecord` and
`addFileMetadata`, carrying the data interpolated into the message. -/
inductive Warning where
  | canvasNest (lastPart parent : String)
  | manifestNest (lastPart parent : String)
  | imageProbeFail (file : String)
  | mediaProbeFail (file : String)
  | noMatches (seg : String)
deriving DecidableEq

/-- The nested metadata document written to `info.yml` (the object built by
`createInfoYml` before YAML serialisation).  A `some none` in a numeric field
models an emitted `NaN`. -/
structure InfoDoc where
  label : Option String
  description : Option String
  attribution : Option String
  behavior : Option (String ⊕ List String)
  width : Option (Option Nat)
  height : Option (Option Nat)
  duration : Option (Option Rat)
  viewingHint : Option String
  viewingDirection : Option String
  navDate : Option String
  metadata : Option (List (String × String))
  requiredStatement : Option (String × String)
  summary : Option String
  provider : Option (String × String × String)
  homepage : Option (String × String × String)
  seeAlso : Option (String × String × String)
  rendering : Option (String × String × String)
  start : Option (String × String × String)
  supplementary : Option (String × String × String)
  services : Option (String × String × String)
deriving DecidableEq

/-- `parseInt(record.width.toString())` on a width/height cell (number
round-trips exactly; `none` models `NaN`). -/
def jsParseIntOfW : WCell → Option Nat
  | .unset => none
  | .fromCsv s => jsParseIntL s.data
  | .fromProbe (some w) => some w
  | .fromProbe none => none

/-- `parseFloat(record.duration.toString())` on a duration cell. -/
def jsParseFloatOfD : DCell → Option Rat
  | .unset => none
  | .fromCsv s => jsParseFloatL s.data
  | .fromProbe v => v

/-- `some s` when `s` is truthy, `none` otherwise (the `if (x) info.k = x`
idiom of `createInfoYml`). -/
def nonEmptyOpt (s : String) : Option String := if truthyStr s then some s else none

/-- Compound group with sub-keys `k1`,`k2`,`k3`: emitted only when all three
values are truthy (lines 270-330 of the source). -/
def group3 (r : Row) (k1 k2 k3 : String) : Option (String × String × String) :=
  if truthyStr (getE r k1) && truthyStr (getE r k2) && truthyStr (getE r k3) then
    some (getE r k1, getE r k2, getE r k3)
  else none

/-- Translation of `createInfoYml` (lines 223-333): build the info object
from a row; YAML serialisation is an external codec and is not modelled. -/
def createInfoYml (record : Row) : InfoDoc :=
  { label := nonEmptyOpt record.label
  , description := nonEmptyOpt record.description
  , attribution := nonEmptyOpt record.attribution
  , behavior :=
      if truthyStr record.behavior then
        if strContains record.behavior "," then
          some (Sum.inr ((jsSplit ',' record.behavior).map jsTrim))
        else some (Sum.inl record.behavior)
      else none
  , width := if record.width.truthy then some (jsParseIntOfW record.width) else none
  , height := if record.height.truthy then some (jsParseIntOfW record.height) else none
  , duration := if record.duration.truthy then some (jsParseFloatOfD record.duration) else none
  , viewingHint := nonEmptyOpt record.viewingHint
  , viewingDirection := nonEmptyOpt record.viewingDirection
  , navDate := nonEmptyOpt record.navDate
  , metadata :=
      let m := record.extra.filterMap (fun kv =>
        if ("metadata.".data.isPrefixOf kv.1.data) && truthyStr kv.2 then
          some (String.mk (kv.1.data.drop 9), kv.2)
        else none)
      if m.isEmpty then none else some m
  , requiredStatement :=
      if truthyStr (getE record "requiredStatement.label")
          && truthyStr (getE record "requiredStatement.value") then
        some (getE record "requiredStatement.label", getE record "requiredStatement.value")
      else none
  , summary := nonEmptyOpt record.summary
  , provider := group3 record "provider.id" "provider.type" "provider.label"
  , homepage := group3 record "homepage.id" "homepage.type" "homepage.label"
  , seeAlso := group3 record "seeAlso.id" "seeAlso.type" "seeAlso.label"
  , rendering := group3 record "rendering.id" "rendering.type" "rendering.label"
  , start := group3 record "start.id" "start.type" "start.label"
  , supplementary := group3 record "supplementary.id" "supplementary.type" "supplementary.label"
  , services := group3 record "services.id" "services.type" "services.profile"
  }

/-- Extensions dispatched to the image probe by `addFileMetadata`. -/
def imageProbeExts : List String := [".jpg", ".jpeg", ".png", ".tiff", ".tif"]

/-- Extensions dispatched to the media probe by `addFileMetadata`. -/
def audioProbeExts : List String := [".mp3", ".mp4", ".wav", ".m4a"]

/-- One filesystem or diagnostic effect of `processRecord`, in source order.
Directory paths are kept as segment lists (the arguments of `join`). -/
inductive Effect where
  | mkdirEff (path : List String)
  | warnEff (w : Warning)
  | copyEff (src : String) (dest : List String)
  | writeFileEff (path : List String) (doc : InfoDoc)
deriving DecidableEq

/-- Translation of `addFileMetadata` (lines 195-221), parameterised by the
two probe oracles.  Returns the updated row and the warnings it emitted. -/
def addFileMetadata (ip : String → Option ImageMeta) (mp : String → MediaRes)
    (filePath : String) (record : Row) : Row × List Effect :=
  let ext := extLower filePath
  if ext ∈ imageProbeExts then
    match ip filePath with
    | some m =>
      ({ record with
          width := if record.width.truthy then record.width else .fromProbe m.width
          height := if record.height.truthy then record.height else .fromProbe m.height }, [])
    | none => (record, [Effect.warnEff (Warning.imageProbeFail filePath)])
  else if ext ∈ audioProbeExts then
    match mp filePath with
    | .ok d =>
      ({ record with
          duration := if record.duration.truthy then record.duration else .fromProbe d }, [])
    | .noStreams => (record, [])
    | .probeFail => (record, [Effect.warnEff (Warning.mediaProbeFail filePath)])
  else (record, [])

/-- `record.hierarchy.split('/')` (line 87). -/
def hierarchyParts (r : Row) : List String := jsSplit '/' r.hierarchy

/-- `parts[parts.length - 1]` (line 90). -/
def lastSegment (r : Row) : String := (hierarchyParts r).getLastD ""

/-- `lastPart.startsWith('canvas')` (line 91). -/
def rowIsCanvas (r : Row) : Bool := jsStartsWith (lastSegment r) "canvas"

/-- `lastPart.includes('manifest')` (line 92). -/
def rowIsManifest (r : Row) : Bool := strContains (lastSegment r) "manifest"

/-- The parts array after the canvas rewrite `parts[len-1] = '_' + lastPart`
(lines 95-97). -/
def rewrittenParts (r : Row) : List String :=
  if rowIsCanvas r then (hierarchyParts r).dropLast ++ ["_" ++ lastSegment r]
  else hierarchyParts r

/-- `parts.length > 1 ? parts[parts.length - 2] : null` (line 100).  The
rewrite only touches the last index, so reading the original parts is
equivalent. -/
def parentSegment (r : Row) : Option String :=
  if (hierarchyParts r).length > 1 then
    some ((hierarchyParts r).getD ((hierarchyParts r).length - 2) "")
  else none

/-- The nesting-rule warnings of lines 100-106, in source order.  The JS
guards are `isCanvas && parentPart && !parentPart.includes('manifest')` and
`isManifest && parentPart && parentPart.includes('manifest')`; `parentPart`
as a truthiness test is `p ≠ ""`. -/
def nestingWarnings (r : Row) : List Warning :=
  match parentSegment r with
  | none => []
  | some p =>
    (if rowIsCanvas r && truthyStr p && !(strContains p "manifest") then
      [Warning.canvasNest (lastSegment r) p] else []) ++
    (if rowIsManifest r && truthyStr p && strContains p "manifest" then
      [Warning.manifestNest (lastSegment r) p] else [])

/-- Character class of the regex `/[_canvas]+/` (line 116): one of the six
characters `_`, `c`, `a`, `n`, `v`, `s`. -/
def classChar (c : Char) : Bool :=
  c == '_' || c == 'c' || c == 'a' || c == 'n' || c == 'v' || c == 's'

/-- Model of `seg.replace(/[_canvas]+/, '')`: delete the first maximal run of
class characters (a `String.replace` without the `g` flag replaces only the
first match). -/
def replaceClassRun : List Char → List Char
  | [] => []
  | c :: rest => if classChar c then rest.dropWhile classChar else c :: replaceClassRun rest

/-- `parseInt(seg.replace(/[_canvas]+/, ''))` (lines 116-117) applied to the
rewritten terminal segment. -/
def canvasIndexOf (seg : String) : Option Nat := jsParseIntL (replaceClassRun seg.data)

/-- The canvas index of a row, parsed from its rewritten terminal segment. -/
def canvasIndexRow (r : Row) : Option Nat := canvasIndexOf ((rewrittenParts r).getLastD "")

/-- `parts[parts.length - 2] === 'audio'` (line 120), false when the index is
out of range (`undefined === 'audio'`). -/
def rowIsAudio (r : Row) : Bool :=
  if (rewrittenParts r).length ≥ 2 then
    ((rewrittenParts r).getD ((rewrittenParts r).length - 2) "") == "audio"
  else false

/-- The literal `part` of the audio regex. -/
def partLit : List Char := ['p', 'a', 'r', 't']

/-- The literal `.mp3` of the audio regex. -/
def mp3Lit : List Char := ['.', 'm', 'p', '3']

/-- Attempt of the regex `part(\d+)(?:-\d+)?\.mp3$` at one start position:
the pattern must consume the whole remaining input (because of `$`); returns
the first captured digit run on success.  Greedy `\d+` needs no backtracking
here since a given-back digit could never match `-`, `.` or the end. -/
def audioMatchAt (cs : List Char) : Option (List Char) :=
  if partLit.isPrefixOf cs then
    let rest := cs.drop 4
    let ds := rest.takeWhile Char.isDigit
    let r2 := rest.dropWhile Char.isDigit
    if ds.isEmpty then none
    else
      match r2 with
      | '-' :: r3 =>
        let ds2 := r3.takeWhile Char.isDigit
        if ds2.isEmpty then none
        else if r3.dropWhile Char.isDigit == mp3Lit then some ds else none
      | _ => if r2 == mp3Lit then some ds else none
  else none

/-- Leftmost-match regex search: try the matcher at every start position from
the left (JS `String.prototype.match` semantics for an unanchored pattern). -/
def scanFor (m : List Char → Option (List Char)) : List Char → Option (List Char)
  | [] => none
  | c :: rest =>
    match m (c :: rest) with
    | some r => some r
    | none => scanFor m rest

/-- The audio branch of the file filter (lines 133-146): extension must be
`.mp3` and the lowercased basename must match
`part(\d+)(?:-\d+)?\.mp3$` with `parseInt` of the capture equal to the canvas
index (`none` models the `NaN` index, which `===` no number). -/
def audioFileMatches (idx : Option Nat) (file : String) : Bool :=
  if extLower file == ".mp3" then
    match scanFor audioMatchAt (lowerBase file) with
    | some ds => idx == some (digitsToNat ds)
    | none => false
  else false

/-- Attempt of the regex `_(\d+)\.[^.]+$` at one start position: underscore,
digit run, a dot, then one or more non-dot characters reaching the end. -/
def imageMatchAt (cs : List Char) : Option (List Char) :=
  match cs with
  | '_' :: rest =>
    let ds := rest.takeWhile Char.isDigit
    let r2 := rest.dropWhile Char.isDigit
    if ds.isEmpty then none
    else
      match r2 with
      | '.' :: tail => if !tail.isEmpty && tail.all (fun c => !(c == '.')) then some ds else none
      | _ => none
  | _ => none

/-- The image branch of the file filter (lines 147-161): extension `.jpg` or
`.jpeg` and the lowercased basename must match `_(\d+)\.[^.]+$` with
`parseInt` of the capture equal to the canvas index. -/
def imageFileMatches (idx : Option Nat) (file : String) : Bool :=
  if extLower file == ".jpg" || extLower file == ".jpeg" then
    match scanFor imageMatchAt (lowerBase file) with
    | some ds => idx == some (digitsToNat ds)
    | none => false
  else false

/-- The file predicate of line 129's `filter`, branching on `isAudio`. -/
def matchPredRow (r : Row) (file : String) : Bool :=
  if rowIsAudio r then audioFileMatches (canvasIndexRow r) file
  else imageFileMatches (canvasIndexRow r) file

/-- `Array.from(fileMap.values()).flat()` filtered by the match predicate
(lines 123-162): the candidate pool is every file of every bucket. -/
def matchedFiles (fileMap : List (String × List String)) (r : Row) : List String :=
  ((fileMap.map Prod.snd).flatten).filter (matchPredRow r)

/-- The copy loop of lines 165-173: per matched file, a copy into the canvas
directory followed by `addFileMetadata` (which may warn), threading the
mutated row. -/
def copyLoop (ip : String → Option ImageMeta) (mp : String → MediaRes)
    (dirPath : List String) : List String → Row → (List Effect × Row)
  | [], r => ([], r)
  | f :: fs, r =>
    let step := addFileMetadata ip mp f r
    let rest := copyLoop ip mp dirPath fs step.1
    (Effect.copyEff f (dirPath ++ [String.mk (basenameL f.data)]) :: (step.2 ++ rest.1), rest.2)

/-- The canvas matching block of lines 114-180: copy every matching file,
extract metadata, and warn when nothing matched. -/
def matchingBlock (ip : String → Option ImageMeta) (mp : String → MediaRes)
    (dirPath : List String) (fileMap : List (String × List String)) (r : Row) :
    List Effect × Row :=
  let matching := matchedFiles fileMap r
  let step := copyLoop ip mp dirPath matching r
  (step.1 ++
    (if matching.isEmpty then
      [Effect.warnEff (Warning.noMatches ((rewrittenParts r).getLastD ""))] else []),
   step.2)

/-- Translation of `processRecord` (lines 80-188), parameterised by the
output directory, whether an input directory was given, the scanned file
map and the probe oracles.  Returns the effect trace in source order:
nesting warnings, `mkdirSync`, the canvas matching block (when active), and
the unconditional `writeFileSync` of `info.yml`. -/
def processRecord (outputDir : String) (hasInput : Bool)
    (fileMap : List (String × List String)) (ip : String → Option ImageMeta)
    (mp : String → MediaRes) (record : Row) : List Effect :=
  let dirPath := outputDir :: rewrittenParts record
  let blk :=
    if hasInput && rowIsCanvas record then matchingBlock ip mp dirPath fileMap record
    else ([], record)
  ((nestingWarnings record).map Effect.warnEff)
    ++ [Effect.mkdirEff dirPath]
    ++ blk.1
    ++ [Effect.writeFileEff (dirPath ++ ["info.yml"]) (createInfoYml blk.2)]

/-- A row whose hierarchy is `h` and whose other cells are all empty/unset
(used for concrete instances). -/
def mkRow (h : String) : Row :=
  ⟨h, "", "", "", "", .unset, .unset, .unset, "", "", "", "", []⟩

/-- The spec's reading of the audio pattern: the lowercased basename contains
(ending at the end of the string, because of `$`) the literal `part`, one or
more digits, optionally a dash and more digits, then `.mp3`, and the first
digit run has value `n`.  Stated from the spec's words, to be compared with
the translated matcher. -/
def AudioSpecPattern (s : List Char) (n : Nat) : Prop :=
  ∃ p d t, s = p ++ partLit ++ d ++ t ∧ d ≠ [] ∧ (∀ c ∈ d, c.isDigit = true) ∧
    (t = mp3Lit ∨
      ∃ d2, d2 ≠ [] ∧ (∀ c ∈ d2, c.isDigit = true) ∧ t = '-' :: (d2 ++ mp3Lit)) ∧
    digitsToNat d = n

/-- The spec's reading of the image pattern: the lowercased basename ends
with an underscore, one or more digits, and the (lowercased) extension, the
digit run having value `n`.  Stated from the spec's words. -/
def ImageSpecPattern (s : List Char) (ext : List Char) (n : Nat) : Prop :=
  ∃ q d, s = q ++ '_' :: (d ++ ext) ∧ d ≠ [] ∧ (∀ c ∈ d, c.isDigit = true) ∧
    digitsToNat d = n

/-- The spec's reserved-marker rewrite of a canvas terminal segment. -/
def markCanvasSeg (s : String) : String := "_" ++ s

/-- Stripping the reserved leaf marker: drop the leading `_`.  Stated from
the spec's words ("the marker must be strippable"). -/
def stripLeafMarker (s : String) : String :=
  match s.data with
  | '_' :: rest => String.mk rest
  | _ => s

/-- Deterministic extraction of the audio capture from the reversed string:
because the regex is `$`-anchored, a match is a suffix, and reading the
reversed string (`.mp3` reversed, optional digits-dash, digits, `part`
reversed) determines the capture uniquely. Used only to prove uniqueness. -/
def revAudioVal (r : List Char) : Option (List Char) :=
  if ['3', 'p', 'm', '.'].isPrefixOf r then
    let r1 := r.drop 4
    let ds := r1.takeWhile Char.isDigit
    let r2 := r1.dropWhile Char.isDigit
    match r2 with
    | '-' :: r3 =>
      if ds.isEmpty then none
      else
        let ds1 := r3.takeWhile Char.isDigit
        if ds1.isEmpty then none
        else if ['t', 'r', 'a', 'p'].isPrefixOf (r3.dropWhile Char.isDigit) then some ds1
        else none
    | _ =>
      if ds.isEmpty then none
      else if ['t', 'r', 'a', 'p'].isPrefixOf r2 then some ds else none
  else none

/-- Deterministic extraction of the image capture from the reversed string:
non-dot run, a dot, digit run, an underscore. Used only to prove uniqueness. -/
def revImageVal (r : List Char) : Option (List Char) :=
  let e := r.takeWhile (fun c => !(c == '.'))
  match r.dropWhile (fun c => !(c == '.')) with
  | '.' :: r2 =>
    if e.isEmpty then none
    else
      let ds := r2.takeWhile Char.isDigit
      match r2.dropWhile Char.isDigit with
      | '_' :: _ => if ds.isEmpty then none else some ds
      | _ => none
  | _ => none

/-! ### Helper lemmas about list primitives -/

theorem isPrefixOf_iff_append : ∀ (p l : List Char), p.isPrefixOf l = true ↔ ∃ t, l = p ++ t
  | [], l => by simp [List.isPrefixOf]
  | a :: as, [] => by simp [List.isPrefixOf]
  | a :: as, b :: bs => by
    rw [show ((a :: as).isPrefixOf (b :: bs)) = (a == b && as.isPrefixOf bs) from rfl]
    simp only [Bool.and_eq_true, beq_iff_eq]
    constructor
    · rintro ⟨rfl, h⟩
      obtain ⟨t, rfl⟩ := (isPrefixOf_iff_append as bs).1 h
      exact ⟨t, rfl⟩
    · rintro ⟨t, ht⟩
      injection ht with h1 h2
      exact ⟨h1.symm, (isPrefixOf_iff_append as bs).2 ⟨t, h2⟩⟩

theorem isPrefixOf_self_append (l t : List Char) : l.isPrefixOf (l ++ t) = true :=
  (isPrefixOf_iff_append l (l ++ t)).2 ⟨t, rfl⟩

theorem takeWhile_all_eq {f : Char → Bool} :
    ∀ {l : List Char}, (∀ c ∈ l, f c = true) → l.takeWhile f = l := by
  intro l
  induction l with
  | nil => intro _; rfl
  | cons a as ih =>
    intro h
    rw [List.takeWhile_cons_of_pos (h a (by simp))]
    rw [ih (fun c hc => h c (by simp [hc]))]

theorem takeWhile_app_stop {f : Char → Bool} :
    ∀ (l1 : List Char) (c : Char) (l2 : List Char),
      (∀ x ∈ l1, f x = true) → f c = false →
      (l1 ++ c :: l2).takeWhile f = l1 ∧ (l1 ++ c :: l2).dropWhile f = c :: l2 := by
  intro l1
  induction l1 with
  | nil =>
    intro c l2 _ hc
    rw [List.nil_append]
    exact ⟨List.takeWhile_cons_of_neg (by simp [hc]), List.dropWhile_cons_of_neg (by simp [hc])⟩
  | cons a as ih =>
    intro c l2 h1 hc
    have ha : f a = true := h1 a (by simp)
    have has : ∀ x ∈ as, f x = true := fun x hx => h1 x (by simp [hx])
    obtain ⟨ht, hd⟩ := ih c l2 has hc
    constructor
    · simp only [List.cons_append, List.takeWhile_cons_of_pos ha, ht]
    · simp only [List.cons_append, List.dropWhile_cons_of_pos ha, hd]

theorem mem_takeWhile_sat {f : Char → Bool} :
    ∀ {l : List Char} {c : Char}, c ∈ l.takeWhile f → f c = true := by
  intro l
  induction l with
  | nil => intro c h; simp [List.takeWhile] at h
  | cons a as ih =>
    intro c h
    by_cases ha : f a = true
    · rw [List.takeWhile_cons_of_pos ha] at h
      rcases List.mem_cons.1 h with rfl | h
      · exact ha
      · exact ih h
    · rw [List.takeWhile_cons_of_neg (by simpa using ha)] at h
      simp at h

theorem mem_dropWhile_mem {f : Char → Bool} :
    ∀ {l : List Char} {c : Char}, c ∈ l.dropWhile f → c ∈ l := by
  intro l
  induction l with
  | nil => intro c h; simp [List.dropWhile] at h
  | cons a as ih =>
    intro c h
    by_cases ha : f a = true
    · rw [List.dropWhile_cons_of_pos ha] at h
      exact List.mem_cons.2 (Or.inr (ih h))
    · rw [List.dropWhile_cons_of_neg (by simpa using ha)] at h
      exact h

theorem dropWhile_all_app {f : Char → Bool} :
    ∀ (l1 l2 : List Char), (∀ x ∈ l1, f x = true) →
      (l1 ++ l2).dropWhile f = l2.dropWhile f := by
  intro l1
  induction l1 with
  | nil => intro l2 _; rfl
  | cons a as ih =>
    intro l2 h
    rw [List.cons_append, List.dropWhile_cons_of_pos (h a (by simp))]
    exact ih l2 (fun x hx => h x (by simp [hx]))

theorem splitOnChar_ne_nil (sep : Char) (cs : List Char) : splitOnChar sep cs ≠ [] := by
  cases cs with
  | nil => simp [splitOnChar]
  | cons x xs =>
    simp only [splitOnChar]
    split
    · simp
    · split <;> simp

theorem hierarchyParts_ne_nil (r : Row) : hierarchyParts r ≠ [] := by
  unfold hierarchyParts jsSplit
  intro h
  exact splitOnChar_ne_nil '/' r.hierarchy.data (List.map_eq_nil_iff.mp h)

/-! ### Audio matcher: soundness, completeness, uniqueness -/

theorem isEmpty_eq_false_iff {α : Type} {l : List α} : l.isEmpty = false ↔ l ≠ [] := by
  cases l <;> simp

theorem isEmpty_eq_true_iff {α : Type} {l : List α} : l.isEmpty = true ↔ l = [] := by
  cases l <;> simp

theorem audioMatchAt_sound {cs ds : List Char} (h : audioMatchAt cs = some ds) :
    ∃ t, cs = partLit ++ ds ++ t ∧ ds ≠ [] ∧ (∀ c ∈ ds, c.isDigit = true) ∧
      (t = mp3Lit ∨ ∃ d2, d2 ≠ [] ∧ (∀ c ∈ d2, c.isDigit = true) ∧ t = '-' :: (d2 ++ mp3Lit)) := by
  simp only [audioMatchAt] at h
  split at h
  case isFalse => exact absurd h (by simp)
  case isTrue hp =>
  obtain ⟨r0, rfl⟩ := (isPrefixOf_iff_append partLit _).1 hp
  rw [show (partLit ++ r0).drop 4 = r0 from List.drop_left' rfl] at h
  have hsplit : r0.takeWhile Char.isDigit ++ r0.dropWhile Char.isDigit = r0 :=
    List.takeWhile_append_dropWhile Char.isDigit r0
  split at h
  case isTrue => exact absurd h (by simp)
  case isFalse hne =>
  split at h
  case h_1 r3 heq =>
    split at h
    case isTrue => exact absurd h (by simp)
    case isFalse hne2 =>
    split at h
    case isFalse => exact absurd h (by simp)
    case isTrue hmp3 =>
    injection h with h'
    subst h'
    refine ⟨'-' :: (r3.takeWhile Char.isDigit ++ mp3Lit), ?_, ?_, ?_, ?_⟩
    · rw [List.append_assoc]
      conv_lhs => rw [← hsplit]
      rw [heq]
      conv_lhs => rw [← List.takeWhile_append_dropWhile Char.isDigit r3]
      rw [eq_of_beq hmp3]
    · exact isEmpty_eq_false_iff.1 (Bool.not_eq_true _ ▸ Bool.of_not_eq_true hne)
    · exact fun c hc => mem_takeWhile_sat hc
    · exact Or.inr ⟨r3.takeWhile Char.isDigit,
        isEmpty_eq_false_iff.1 (Bool.not_eq_true _ ▸ Bool.of_not_eq_true hne2),
        fun c hc => mem_takeWhile_sat hc, rfl⟩
  case h_2 hnodash =>
    split at h
    case isFalse => exact absurd h (by simp)
    case isTrue hmp3 =>
    injection h with h'
    subst h'
    refine ⟨r0.dropWhile Char.isDigit, ?_, ?_, ?_, Or.inl (eq_of_beq hmp3)⟩
    · rw [List.append_assoc, hsplit]
    · exact isEmpty_eq_false_iff.1 (Bool.not_eq_true _ ▸ Bool.of_not_eq_true hne)
    · exact fun c hc => mem_takeWhile_sat hc

theorem audioMatchAt_complete {d t : List Char} (hd : d ≠ []) (hdig : ∀ c ∈ d, c.isDigit = true)
    (ht : t = mp3Lit ∨ ∃ d2, d2 ≠ [] ∧ (∀ c ∈ d2, c.isDigit = true) ∧ t = '-' :: (d2 ++ mp3Lit)) :
    audioMatchAt (partLit ++ (d ++ t)) = some d := by
  have hpre : partLit.isPrefixOf (partLit ++ (d ++ t)) = true := isPrefixOf_self_append _ _
  have hdE : d.isEmpty = false := isEmpty_eq_false_iff.2 hd
  simp only [audioMatchAt, hpre, if_true]
  rw [show (partLit ++ (d ++ t)).drop 4 = d ++ t from List.drop_left' rfl]
  rcases ht with rfl | ⟨d2, hd2, hdig2, rfl⟩
  · have hstop := takeWhile_app_stop d '.' ['m', 'p', '3'] hdig (by decide)
    rw [show (d ++ mp3Lit) = d ++ '.' :: ['m', 'p', '3'] from rfl, hstop.1, hstop.2, hdE]
    simp [mp3Lit]
  · have hstop := takeWhile_app_stop d '-' (d2 ++ mp3Lit) hdig (by decide)
    rw [hstop.1, hstop.2, hdE]
    have hstop2 := takeWhile_app_stop d2 '.' ['m', 'p', '3'] hdig2 (by decide)
    have hd2E : (d2 ++ '.' :: ['m', 'p', '3']).takeWhile Char.isDigit = d2 := hstop2.1
    simp only [Bool.false_eq_true, if_false]
    rw [show (d2 ++ mp3Lit) = d2 ++ '.' :: ['m', 'p', '3'] from rfl]
    rw [hstop2.1, hstop2.2]
    rw [isEmpty_eq_false_iff.2 hd2]
    simp [mp3Lit]

theorem revAudioVal_eq {s p d t : List Char} (hs : s = p ++ partLit ++ d ++ t)
    (hd : d ≠ []) (hdig : ∀ c ∈ d, c.isDigit = true)
    (ht : t = mp3Lit ∨ ∃ d2, d2 ≠ [] ∧ (∀ c ∈ d2, c.isDigit = true) ∧ t = '-' :: (d2 ++ mp3Lit)) :
    revAudioVal s.reverse = some d.reverse := by
  have hdigr : ∀ c ∈ d.reverse, Char.isDigit c = true := by
    intro c hc; exact hdig c (List.mem_reverse.1 hc)
  have hdr : d.reverse ≠ [] := by
    intro hrev
    exact hd (by simpa using congrArg List.reverse hrev)
  have hdrE : d.reverse.isEmpty = false := isEmpty_eq_false_iff.2 hdr
  rcases ht with rfl | ⟨d2, hd2, hdig2, rfl⟩
  · have h1 : s.reverse = ['3', 'p', 'm', '.'] ++ (d.reverse ++ ('t' :: 'r' :: 'a' :: 'p' :: p.reverse)) := by
      subst hs; simp [List.reverse_append, partLit, mp3Lit]
    rw [h1]
    simp only [revAudioVal, isPrefixOf_self_append, if_true]
    rw [show (['3', 'p', 'm', '.'] ++ (d.reverse ++ ('t' :: 'r' :: 'a' :: 'p' :: p.reverse))).drop 4
        = d.reverse ++ ('t' :: 'r' :: 'a' :: 'p' :: p.reverse) from List.drop_left' rfl]
    have hstop := takeWhile_app_stop d.reverse 't' ('r' :: 'a' :: 'p' :: p.reverse) hdigr (by decide)
    rw [hstop.1, hstop.2, hdrE]
    have htrap : (['t', 'r', 'a', 'p'] : List Char).isPrefixOf ('t' :: 'r' :: 'a' :: 'p' :: p.reverse) = true :=
      isPrefixOf_self_append ['t', 'r', 'a', 'p'] p.reverse
    simp [htrap]
  · have hdigr2 : ∀ c ∈ d2.reverse, Char.isDigit c = true := by
      intro c hc; exact hdig2 c (List.mem_reverse.1 hc)
    have hdr2 : d2.reverse ≠ [] := by
      intro hrev
      exact hd2 (by simpa using congrArg List.reverse hrev)
    have h1 : s.reverse = ['3', 'p', 'm', '.'] ++ (d2.reverse ++ '-' :: (d.reverse ++ ('t' :: 'r' :: 'a' :: 'p' :: p.reverse))) := by
      subst hs; simp [List.reverse_append, partLit, mp3Lit]
    rw [h1]
    simp only [revAudioVal, isPrefixOf_self_append, if_true]
    rw [show (['3', 'p', 'm', '.'] ++ (d2.reverse ++ '-' :: (d.reverse ++ ('t' :: 'r' :: 'a' :: 'p' :: p.reverse)))).drop 4
        = d2.reverse ++ '-' :: (d.reverse ++ ('t' :: 'r' :: 'a' :: 'p' :: p.reverse)) from List.drop_left' rfl]
    have hstop := takeWhile_app_stop d2.reverse '-' (d.reverse ++ ('t' :: 'r' :: 'a' :: 'p' :: p.reverse)) hdigr2 (by decide)
    rw [hstop.1, hstop.2, isEmpty_eq_false_iff.2 hdr2]
    have hstop2 : (d.reverse ++ 't' :: 'r' :: 'a' :: 'p' :: p.reverse).takeWhile Char.isDigit = d.reverse ∧
        (d.reverse ++ 't' :: 'r' :: 'a' :: 'p' :: p.reverse).dropWhile Char.isDigit = 't' :: 'r' :: 'a' :: 'p' :: p.reverse :=
      takeWhile_app_stop d.reverse 't' ('r' :: 'a' :: 'p' :: p.reverse) hdigr (by decide)
    have htrap : (['t', 'r', 'a', 'p'] : List Char).isPrefixOf ('t' :: 'r' :: 'a' :: 'p' :: p.reverse) = true :=
      isPrefixOf_self_append ['t', 'r', 'a', 'p'] p.reverse
    simp [hstop2.1, hstop2.2, hdrE, htrap]

theorem audioSpec_val_unique {s : List Char} {n m : Nat}
    (h1 : AudioSpecPattern s n) (h2 : AudioSpecPattern s m) : n = m := by
  obtain ⟨p, d, t, hs, hd, hdig, ht, hv⟩ := h1
  obtain ⟨p', d', t', hs', hd', hdig', ht', hv'⟩ := h2
  have e1 := revAudioVal_eq hs hd hdig ht
  have e2 := revAudioVal_eq hs' hd' hdig' ht'
  rw [e1] at e2
  have : d.reverse = d'.reverse := Option.some.inj e2
  have hdd : d = d' := by
    have := congrArg List.reverse this
    simpa using this
  rw [← hv, ← hv', hdd]

theorem scanFor_sound {m : List Char → Option (List Char)} :
    ∀ {l r : List Char}, scanFor m l = some r → ∃ p s, l = p ++ s ∧ m s = some r := by
  intro l
  induction l with
  | nil => intro r h; simp [scanFor] at h
  | cons c rest ih =>
    intro r h
    simp only [scanFor] at h
    split at h
    case h_1 r' heq =>
      injection h with h'
      subst h'
      exact ⟨[], c :: rest, rfl, heq⟩
    case h_2 => 
      obtain ⟨p, s, hps, hm⟩ := ih h
      exact ⟨c :: p, s, by rw [hps]; rfl, hm⟩

theorem scanFor_finds {m : List Char → Option (List Char)} :
    ∀ (p s : List Char) (r : List Char), s ≠ [] → m s = some r →
      ∃ r', scanFor m (p ++ s) = some r' := by
  intro p
  induction p with
  | nil =>
    intro s r hs hm
    cases s with
    | nil => exact absurd rfl hs
    | cons c cs => exact ⟨r, by simp [scanFor, hm]⟩
  | cons c p' ih =>
    intro s r hs hm
    obtain ⟨r', hr'⟩ := ih s r hs hm
    cases hm2 : m (c :: (p' ++ s)) with
    | some r2 => exact ⟨r2, by simp [scanFor, hm2]⟩
    | none => exact ⟨r', by simp [scanFor, hm2, hr']⟩

theorem audioFileMatches_iff (f : String) (n : Nat) :
    audioFileMatches (some n) f = true ↔
      (extLower f = ".mp3" ∧ AudioSpecPattern (lowerBase f) n) := by
  constructor
  · intro h
    unfold audioFileMatches at h
    split at h
    case isFalse => exact absurd h (by simp)
    case isTrue hext =>
    refine ⟨eq_of_beq hext, ?_⟩
    split at h
    case h_2 => exact absurd h (by simp)
    case h_1 ds heq =>
    have hn : n = digitsToNat ds := by
      have h' := eq_of_beq h
      injection h'
    obtain ⟨p, s, hps, hm⟩ := scanFor_sound heq
    obtain ⟨t, hst, hd, hdig, ht⟩ := audioMatchAt_sound hm
    refine ⟨p, ds, t, ?_, hd, hdig, ht, hn.symm⟩
    rw [hps, hst]
    simp [List.append_assoc]
  · rintro ⟨hext, p, d, t, hs, hd, hdig, ht, hv⟩
    have hm := audioMatchAt_complete hd hdig ht
    have hsne : (partLit ++ (d ++ t)) ≠ [] := by simp [partLit]
    obtain ⟨r', hr'⟩ := scanFor_finds p (partLit ++ (d ++ t)) d hsne hm
    have hls : lowerBase f = p ++ (partLit ++ (d ++ t)) := by
      rw [hs]; simp [List.append_assoc]
    have hscan : scanFor audioMatchAt (lowerBase f) = some r' := by rw [hls]; exact hr'
    obtain ⟨p2, s2, hps2, hm2⟩ := scanFor_sound hscan
    obtain ⟨t2, hst2, hd2, hdig2, ht2⟩ := audioMatchAt_sound hm2
    have hpat2 : AudioSpecPattern (lowerBase f) (digitsToNat r') := by
      refine ⟨p2, r', t2, ?_, hd2, hdig2, ht2, rfl⟩
      rw [hps2, hst2]
      simp [List.append_assoc]
    have hval : digitsToNat r' = n :=
      audioSpec_val_unique hpat2 ⟨p, d, t, hs, hd, hdig, ht, hv⟩
    unfold audioFileMatches
    rw [hext, hscan]
    simp [hval]

/-! ### Image matcher: soundness, completeness, uniqueness -/

theorem dropWhile_head_false {f : Char → Bool} :
    ∀ {l : List Char} {c : Char} {rest : List Char}, l.dropWhile f = c :: rest → f c = false := by
  intro l
  induction l with
  | nil => intro c rest h; simp [List.dropWhile] at h
  | cons a as ih =>
    intro c rest h
    by_cases ha : f a = true
    · rw [List.dropWhile_cons_of_pos ha] at h
      exact ih h
    · rw [List.dropWhile_cons_of_neg (by simpa using ha)] at h
      injection h with h1 _
      subst h1
      simpa using ha

theorem imageMatchAt_sound {cs ds : List Char} (h : imageMatchAt cs = some ds) :
    ∃ tail, cs = '_' :: (ds ++ '.' :: tail) ∧ ds ≠ [] ∧ (∀ c ∈ ds, c.isDigit = true) ∧
      tail ≠ [] ∧ (∀ c ∈ tail, (c == '.') = false) := by
  unfold imageMatchAt at h
  split at h
  case h_2 => exact absurd h (by simp)
  case h_1 rest =>
  simp only at h
  split at h
  case isTrue => exact absurd h (by simp)
  case isFalse hne =>
  split at h
  case h_2 => exact absurd h (by simp)
  case h_1 tail heq =>
  split at h
  case isFalse => exact absurd h (by simp)
  case isTrue hcond =>
  injection h with h'
  subst h'
  have hcond' : (!tail.isEmpty) = true ∧ tail.all (fun c => !(c == '.')) = true := by
    simpa using hcond
  refine ⟨tail, ?_, ?_, fun c hc => mem_takeWhile_sat hc, ?_, ?_⟩
  · congr 1
    conv_lhs => rw [← List.takeWhile_append_dropWhile Char.isDigit rest]
    rw [heq]
  · exact isEmpty_eq_false_iff.1 (Bool.not_eq_true _ ▸ Bool.of_not_eq_true hne)
  · exact isEmpty_eq_false_iff.1 (by simpa using hcond'.1)
  · intro c hc
    have := List.all_eq_true.1 hcond'.2 c hc
    simpa using this

theorem imageMatchAt_complete {ds tail : List Char} (hd : ds ≠ [])
    (hdig : ∀ c ∈ ds, c.isDigit = true) (htl : tail ≠ [])
    (hnd : ∀ c ∈ tail, (c == '.') = false) :
    imageMatchAt ('_' :: (ds ++ '.' :: tail)) = some ds := by
  have hstop := takeWhile_app_stop ds '.' tail hdig (by decide)
  have h1 : tail.isEmpty = false := isEmpty_eq_false_iff.2 htl
  have h2 : tail.all (fun c => !(c == '.')) = true := by
    rw [List.all_eq_true]
    intro c hc
    simp [hnd c hc]
  simp only [imageMatchAt, hstop.1, hstop.2, isEmpty_eq_false_iff.2 hd]
  simp [h1, h2]

theorem revImageVal_eq {s q d tail : List Char} (hs : s = q ++ '_' :: (d ++ '.' :: tail))
    (hd : d ≠ []) (hdig : ∀ c ∈ d, c.isDigit = true) (htl : tail ≠ [])
    (hnd : ∀ c ∈ tail, (c == '.') = false) :
    revImageVal s.reverse = some d.reverse := by
  have h1 : s.reverse = tail.reverse ++ '.' :: (d.reverse ++ '_' :: q.reverse) := by
    subst hs; simp [List.reverse_append, List.append_assoc]
  rw [h1]
  have hndr : ∀ c ∈ tail.reverse, (fun c => !(c == '.')) c = true := by
    intro c hc
    simp [hnd c (List.mem_reverse.1 hc)]
  have hstop := takeWhile_app_stop tail.reverse '.' (d.reverse ++ '_' :: q.reverse) hndr (by decide)
  have hdigr : ∀ c ∈ d.reverse, Char.isDigit c = true := by
    intro c hc; exact hdig c (List.mem_reverse.1 hc)
  have hstop2 := takeWhile_app_stop d.reverse '_' q.reverse hdigr (by decide)
  have htlr : tail.reverse.isEmpty = false := by
    rw [isEmpty_eq_false_iff]
    intro hrev
    exact htl (by simpa using congrArg List.reverse hrev)
  have hdr : d.reverse.isEmpty = false := by
    rw [isEmpty_eq_false_iff]
    intro hrev
    exact hd (by simpa using congrArg List.reverse hrev)
  unfold revImageVal
  rw [hstop.1, hstop.2]
  simp [htlr, hstop2.1, hstop2.2, hdr]

theorem imageVal_unique {s q d tail q' d' tail' : List Char}
    (h1 : s = q ++ '_' :: (d ++ '.' :: tail)) (hd : d ≠ [])
    (hdig : ∀ c ∈ d, c.isDigit = true) (htl : tail ≠ [])
    (hnd : ∀ c ∈ tail, (c == '.') = false)
    (h2 : s = q' ++ '_' :: (d' ++ '.' :: tail')) (hd' : d' ≠ [])
    (hdig' : ∀ c ∈ d', c.isDigit = true) (htl' : tail' ≠ [])
    (hnd' : ∀ c ∈ tail', (c == '.') = false) : d = d' := by
  have e1 := revImageVal_eq h1 hd hdig htl hnd
  have e2 := revImageVal_eq h2 hd' hdig' htl' hnd'
  rw [e1] at e2
  have h3 : d.reverse = d'.reverse := Option.some.inj e2
  have := congrArg List.reverse h3
  simpa using this

theorem lastDot_unique {a x b y : List Char} (h : a ++ '.' :: x = b ++ '.' :: y)
    (hx : ∀ c ∈ x, (c == '.') = false) (hy : ∀ c ∈ y, (c == '.') = false) : x = y := by
  have h' := congrArg List.reverse h
  simp only [List.reverse_append, List.reverse_cons, List.append_assoc, List.nil_append,
    List.cons_append] at h'
  have hx' : ∀ c ∈ x.reverse, (fun c => !(c == '.')) c = true := by
    intro c hc; simp [hx c (List.mem_reverse.1 hc)]
  have hy' : ∀ c ∈ y.reverse, (fun c => !(c == '.')) c = true := by
    intro c hc; simp [hy c (List.mem_reverse.1 hc)]
  have e1 := (takeWhile_app_stop x.reverse '.' a.reverse hx' (by decide)).1
  have e2 := (takeWhile_app_stop y.reverse '.' b.reverse hy' (by decide)).1
  rw [h'] at e1
  rw [e2] at e1
  have h4 := congrArg List.reverse e1
  have h5 : y = x := by simpa using h4
  exact h5.symm

theorem extnameL_shape {cs : List Char} (h : extnameL cs ≠ []) :
    ∃ e stem, extnameL cs = '.' :: e ∧ basenameL cs = stem ++ '.' :: e ∧
      (∀ c ∈ e, (c == '.') = false) := by
  simp only [extnameL] at h ⊢
  split at h
  case h_1 => exact absurd rfl h
  case h_2 x rest heq =>
  split at h
  case isTrue => exact absurd rfl h
  case isFalse hre =>
  rw [if_neg hre]
  have hx : x = '.' := by
    have := dropWhile_head_false heq
    have : (x == '.') = true := by simpa using this
    exact eq_of_beq this
  subst hx
  refine ⟨((basenameL cs).reverse.takeWhile (fun c => !(c == '.'))).reverse, rest.reverse,
    rfl, ?_, ?_⟩
  · have hsplit : (basenameL cs).reverse.takeWhile (fun c => !(c == '.')) ++
        (basenameL cs).reverse.dropWhile (fun c => !(c == '.')) = (basenameL cs).reverse :=
      List.takeWhile_append_dropWhile _ _
    rw [heq] at hsplit
    have := congrArg List.reverse hsplit
    simp only [List.reverse_append, List.reverse_cons, List.reverse_reverse,
      List.append_assoc, List.nil_append, List.cons_append] at this
    exact this.symm
  · intro c hc
    have hmem := List.mem_reverse.1 hc
    have := mem_takeWhile_sat hmem
    simpa using this

theorem lowerL_append (a b : List Char) : lowerL (a ++ b) = lowerL a ++ lowerL b :=
  List.map_append Char.toLower a b

theorem lowerL_cons_dot (e : List Char) : lowerL ('.' :: e) = '.' :: lowerL e := by
  simp [lowerL]

theorem lowerBase_shape {f : String} {E : String} {tl0 : List Char}
    (hE : extLower f = E) (hEd : E.data = '.' :: tl0) :
    ∃ stem, lowerBase f = stem ++ '.' :: tl0 := by
  have hdataE : lowerL (extnameL f.data) = '.' :: tl0 := by
    have : (extLower f).data = E.data := by rw [hE]
    rw [hEd] at this
    exact this
  have hne : extnameL f.data ≠ [] := by
    intro h0
    rw [h0] at hdataE
    simp [lowerL] at hdataE
  obtain ⟨e, stem, hext, hbase, hnd⟩ := extnameL_shape hne
  rw [hext] at hdataE
  rw [lowerL_cons_dot] at hdataE
  have htl : lowerL e = tl0 := by
    injection hdataE
  refine ⟨lowerL stem, ?_⟩
  unfold lowerBase
  rw [hbase, lowerL_append, lowerL_cons_dot, htl]

theorem imageFileMatches_iff_ext {f : String} {n : Nat} {E : String} {tl0 : List Char}
    (hE : extLower f = E) (hEd : E.data = '.' :: tl0) (htl0 : tl0 ≠ [])
    (hnd0 : ∀ c ∈ tl0, (c == '.') = false)
    (hor : (E == ".jpg" || E == ".jpeg") = true) :
    imageFileMatches (some n) f = true ↔ ImageSpecPattern (lowerBase f) E.data n := by
  obtain ⟨stem, hsb⟩ := lowerBase_shape hE hEd
  constructor
  · intro h
    unfold imageFileMatches at h
    split at h
    case isFalse => exact absurd h (by simp)
    case isTrue hext =>
    split at h
    case h_2 => exact absurd h (by simp)
    case h_1 ds heq =>
    have hn : n = digitsToNat ds := by
      have h' := eq_of_beq h
      injection h'
    obtain ⟨p, s, hps, hm⟩ := scanFor_sound heq
    obtain ⟨tail, hst, hd, hdig, htl, hnd⟩ := imageMatchAt_sound hm
    have hdecomp : lowerBase f = p ++ '_' :: (ds ++ '.' :: tail) := by rw [hps, hst]
    have heq2 : (p ++ '_' :: ds) ++ '.' :: tail = stem ++ '.' :: tl0 :=
      calc (p ++ '_' :: ds) ++ '.' :: tail
          = p ++ '_' :: (ds ++ '.' :: tail) := by simp [List.append_assoc]
        _ = stem ++ '.' :: tl0 := hdecomp.symm.trans hsb
    have htt : tail = tl0 := lastDot_unique heq2 hnd hnd0
    refine ⟨p, ds, ?_, hd, hdig, hn.symm⟩
    rw [hdecomp, htt, hEd]
  · rintro ⟨q, d, hs, hd, hdig, hv⟩
    rw [hEd] at hs
    have hm := imageMatchAt_complete hd hdig htl0 hnd0
    have hsne : ('_' :: (d ++ '.' :: tl0)) ≠ [] := by simp
    obtain ⟨r', hr'⟩ := scanFor_finds q ('_' :: (d ++ '.' :: tl0)) d hsne hm
    have hscan : scanFor imageMatchAt (lowerBase f) = some r' := by rw [hs]; exact hr'
    obtain ⟨p2, s2, hps2, hm2⟩ := scanFor_sound hscan
    obtain ⟨tail2, hst2, hd2, hdig2, htl2, hnd2⟩ := imageMatchAt_sound hm2
    have hdecomp2 : lowerBase f = p2 ++ '_' :: (r' ++ '.' :: tail2) := by rw [hps2, hst2]
    have hval : r' = d :=
      imageVal_unique hdecomp2 hd2 hdig2 htl2 hnd2 hs hd hdig htl0 hnd0
    unfold imageFileMatches
    rw [hE, hscan]
    simp [hor, hval, hv]

theorem imageFileMatches_iff (f : String) (n : Nat) :
    imageFileMatches (some n) f = true ↔
      ((extLower f = ".jpg" ∨ extLower f = ".jpeg") ∧
        ImageSpecPattern (lowerBase f) (extLower f).data n) := by
  constructor
  · intro h
    have hor : (extLower f == ".jpg" || extLower f == ".jpeg") = true := by
      unfold imageFileMatches at h
      split at h
      case isTrue hc => exact hc
      case isFalse => exact absurd h (by simp)
    have hor' : extLower f = ".jpg" ∨ extLower f = ".jpeg" := by simpa using hor
    rcases hor' with hE | hE
    · refine ⟨Or.inl hE, ?_⟩
      have := (imageFileMatches_iff_ext hE rfl (by decide) (by decide) (by decide)).1 h
      rw [hE]
      exact this
    · refine ⟨Or.inr hE, ?_⟩
      have := (imageFileMatches_iff_ext hE rfl (by decide) (by decide) (by decide)).1 h
      rw [hE]
      exact this
  · rintro ⟨hor, hpat⟩
    rcases hor with hE | hE
    · refine (imageFileMatches_iff_ext hE rfl (by decide) (by decide) (by decide)).2 ?_
      rw [hE] at hpat
      exact hpat
    · refine (imageFileMatches_iff_ext hE rfl (by decide) (by decide) (by decide)).2 ?_
      rw [hE] at hpat
      exact hpat

/-! ### Canvas index and pipeline support lemmas -/

theorem mem_takeWhile_mem {f : Char → Bool} :
    ∀ {l : List Char} {c : Char}, c ∈ l.takeWhile f → c ∈ l := by
  intro l
  induction l with
  | nil => intro c h; simp [List.takeWhile] at h
  | cons a as ih =>
    intro c h
    by_cases ha : f a = true
    · rw [List.takeWhile_cons_of_pos ha] at h
      rcases List.mem_cons.1 h with rfl | h
      · exact List.mem_cons.2 (Or.inl rfl)
      · exact List.mem_cons.2 (Or.inr (ih h))
    · rw [List.takeWhile_cons_of_neg (by simpa using ha)] at h
      simp at h

theorem mem_replaceClassRun {c : Char} :
    ∀ {l : List Char}, c ∈ replaceClassRun l → c ∈ l := by
  intro l
  induction l with
  | nil => intro h; simp [replaceClassRun] at h
  | cons a as ih =>
    intro h
    unfold replaceClassRun at h
    split at h
    · exact List.mem_cons.2 (Or.inr (mem_dropWhile_mem h))
    · rcases List.mem_cons.1 h with rfl | h'
      · exact List.mem_cons_self c as
      · exact List.mem_cons.2 (Or.inr (ih h'))

theorem jsParseIntL_some_digit {l : List Char} {n : Nat} (h : jsParseIntL l = some n) :
    ∃ c ∈ l, c.isDigit = true := by
  simp only [jsParseIntL] at h
  split at h
  case isTrue => exact absurd h (by simp)
  case isFalse hne =>
  have hne' : l.takeWhile Char.isDigit ≠ [] :=
    isEmpty_eq_false_iff.1 (Bool.not_eq_true _ ▸ Bool.of_not_eq_true hne)
  cases htw : l.takeWhile Char.isDigit with
  | nil => exact absurd htw hne'
  | cons c cs =>
    have hc : c ∈ l.takeWhile Char.isDigit := by rw [htw]; exact List.mem_cons_self c cs
    exact ⟨c, mem_takeWhile_mem hc, mem_takeWhile_sat hc⟩

theorem canvasIndexOf_no_digit {seg : String} (h : ∀ c ∈ seg.data, c.isDigit = false) :
    canvasIndexOf seg = none := by
  cases hp : canvasIndexOf seg with
  | none => rfl
  | some n =>
    exfalso
    obtain ⟨c, hc, hdig⟩ := jsParseIntL_some_digit hp
    have := h c (mem_replaceClassRun hc)
    rw [this] at hdig
    exact absurd hdig (by simp)

theorem digit_not_classChar {c : Char} (h : c.isDigit = true) : classChar c = false := by
  cases hcl : classChar c
  · rfl
  · exfalso
    unfold classChar at hcl
    simp only [Bool.or_eq_true, beq_iff_eq] at hcl
    rcases hcl with (((((rfl | rfl) | rfl) | rfl) | rfl) | rfl) <;> exact absurd h (by decide)

theorem dropWhile_classChar_digits {ds : List Char} (hdig : ∀ c ∈ ds, c.isDigit = true) :
    ds.dropWhile classChar = ds := by
  cases ds with
  | nil => rfl
  | cons c cs =>
    have := digit_not_classChar (hdig c (List.mem_cons_self c cs))
    exact List.dropWhile_cons_of_neg (by simp [this])

theorem canvasIndexOf_marked_digits (ds : List Char) (hne : ds ≠ [])
    (hdig : ∀ c ∈ ds, c.isDigit = true) :
    canvasIndexOf ("_canvas" ++ String.mk ds) = some (digitsToNat ds) := by
  have hdata : ("_canvas" ++ String.mk ds).data = '_' :: 'c' :: 'a' :: 'n' :: 'v' :: 'a' :: 's' :: ds := by
    simp [String.data_append]
  unfold canvasIndexOf
  rw [hdata]
  have h1 : replaceClassRun ('_' :: 'c' :: 'a' :: 'n' :: 'v' :: 'a' :: 's' :: ds) = ds := by
    unfold replaceClassRun
    rw [if_pos (by decide)]
    rw [List.dropWhile_cons_of_pos (by decide), List.dropWhile_cons_of_pos (by decide),
      List.dropWhile_cons_of_pos (by decide), List.dropWhile_cons_of_pos (by decide),
      List.dropWhile_cons_of_pos (by decide), List.dropWhile_cons_of_pos (by decide)]
    exact dropWhile_classChar_digits hdig
  rw [h1]
  simp only [jsParseIntL]
  rw [takeWhile_all_eq hdig, isEmpty_eq_false_iff.2 hne]
  simp

theorem audioFileMatches_none (f : String) : audioFileMatches none f = false := by
  unfold audioFileMatches
  split
  · split <;> rfl
  · rfl

theorem imageFileMatches_none (f : String) : imageFileMatches none f = false := by
  unfold imageFileMatches
  split
  · split <;> rfl
  · rfl

theorem matchPredRow_none {r : Row} (h : canvasIndexRow r = none) (f : String) :
    matchPredRow r f = false := by
  unfold matchPredRow
  rw [h]
  split
  · exact audioFileMatches_none f
  · exact imageFileMatches_none f

theorem matchedFiles_none {fileMap : List (String × List String)} {r : Row}
    (h : canvasIndexRow r = none) : matchedFiles fileMap r = [] := by
  unfold matchedFiles
  rw [List.filter_eq_nil_iff]
  intro f _
  simp [matchPredRow_none h f]

theorem addFileMetadata_effects {ip : String → Option ImageMeta} {mp : String → MediaRes}
    {f : String} {r : Row} :
    ∀ e ∈ (addFileMetadata ip mp f r).2,
      e = Effect.warnEff (Warning.imageProbeFail f) ∨
      e = Effect.warnEff (Warning.mediaProbeFail f) := by
  intro e he
  simp only [addFileMetadata] at he
  by_cases h1 : extLower f ∈ imageProbeExts
  · rw [if_pos h1] at he
    cases hip : ip f with
    | some m => rw [hip] at he; simp at he
    | none => rw [hip] at he; simp at he; exact Or.inl he
  · rw [if_neg h1] at he
    by_cases h2 : extLower f ∈ audioProbeExts
    · rw [if_pos h2] at he
      cases hmp : mp f with
      | ok d => rw [hmp] at he; simp at he
      | noStreams => rw [hmp] at he; simp at he
      | probeFail => rw [hmp] at he; simp at he; exact Or.inr he
    · rw [if_neg h2] at he
      simp at he

theorem copyLoop_mem_copy {ip : String → Option ImageMeta} {mp : String → MediaRes}
    {dirPath : List String} :
    ∀ (fs : List String) (r : Row) (g : String) (d : List String),
      Effect.copyEff g d ∈ (copyLoop ip mp dirPath fs r).1 ↔
        (g ∈ fs ∧ d = dirPath ++ [String.mk (basenameL g.data)]) := by
  intro fs
  induction fs with
  | nil => intro r g d; simp [copyLoop]
  | cons f fs' ih =>
    intro r g d
    simp only [copyLoop, List.mem_cons, List.mem_append]
    constructor
    · rintro (h | h | h)
      · injection h with h1 h2
        subst h1
        exact ⟨Or.inl rfl, h2⟩
      · rcases addFileMetadata_effects _ h with h' | h' <;> exact absurd h' (by simp)
      · obtain ⟨hmem, heq⟩ := (ih _ g d).1 h
        exact ⟨Or.inr hmem, heq⟩
    · rintro ⟨hmem, rfl⟩
      rcases hmem with rfl | hmem'
      · exact Or.inl rfl
      · exact Or.inr (Or.inr ((ih _ g _).2 ⟨hmem', rfl⟩))

theorem copyLoop_effect_shapes {ip : String → Option ImageMeta} {mp : String → MediaRes}
    {dirPath : List String} :
    ∀ (fs : List String) (r : Row), ∀ e ∈ (copyLoop ip mp dirPath fs r).1,
      (∃ g d, e = Effect.copyEff g d) ∨
      (∃ g, e = Effect.warnEff (Warning.imageProbeFail g)) ∨
      (∃ g, e = Effect.warnEff (Warning.mediaProbeFail g)) := by
  intro fs
  induction fs with
  | nil => intro r e he; simp [copyLoop] at he
  | cons f fs' ih =>
    intro r e he
    simp only [copyLoop, List.mem_cons, List.mem_append] at he
    rcases he with rfl | he | he
    · exact Or.inl ⟨f, _, rfl⟩
    · rcases addFileMetadata_effects _ he with rfl | rfl
      · exact Or.inr (Or.inl ⟨f, rfl⟩)
      · exact Or.inr (Or.inr ⟨f, rfl⟩)
    · exact ih _ e he

theorem matchingBlock_effect_shapes {ip : String → Option ImageMeta} {mp : String → MediaRes}
    {dirPath : List String} {fileMap : List (String × List String)} {r : Row} :
    ∀ e ∈ (matchingBlock ip mp dirPath fileMap r).1,
      (∃ g d, e = Effect.copyEff g d) ∨
      (∃ g, e = Effect.warnEff (Warning.imageProbeFail g)) ∨
      (∃ g, e = Effect.warnEff (Warning.mediaProbeFail g)) ∨
      (∃ s, e = Effect.warnEff (Warning.noMatches s)) := by
  intro e he
  unfold matchingBlock at he
  simp only [List.mem_append] at he
  rcases he with he | he
  · rcases copyLoop_effect_shapes _ _ e he with h | h | h
    · exact Or.inl h
    · exact Or.inr (Or.inl h)
    · exact Or.inr (Or.inr (Or.inl h))
  · split at he
    · simp at he
      exact Or.inr (Or.inr (Or.inr ⟨_, he⟩))
    · simp at he

theorem mem_matchedFiles {fm : List (String × List String)} {r : Row} {g : String} :
    g ∈ matchedFiles fm r ↔ ((∃ pr ∈ fm, g ∈ pr.2) ∧ matchPredRow r g = true) := by
  unfold matchedFiles
  rw [List.mem_filter]
  constructor
  · rintro ⟨hmem, hpred⟩
    refine ⟨?_, hpred⟩
    obtain ⟨l, hl, hgl⟩ := List.mem_flatten.1 hmem
    obtain ⟨pr, hpr, rfl⟩ := List.mem_map.1 hl
    exact ⟨pr, hpr, hgl⟩
  · rintro ⟨⟨pr, hpr, hgpr⟩, hpred⟩
    exact ⟨List.mem_flatten.2 ⟨pr.2, List.mem_map.2 ⟨pr, hpr, rfl⟩, hgpr⟩, hpred⟩

theorem warn_nest_mem_iff {out : String} {hi : Bool} {fm : List (String × List String)}
    {ip : String → Option ImageMeta} {mp : String → MediaRes} {r : Row} {w : Warning}
    (hs1 : ∀ g, w ≠ Warning.imageProbeFail g) (hs2 : ∀ g, w ≠ Warning.mediaProbeFail g)
    (hs3 : ∀ g, w ≠ Warning.noMatches g) :
    Effect.warnEff w ∈ processRecord out hi fm ip mp r ↔ w ∈ nestingWarnings r := by
  simp only [processRecord, List.mem_append, List.mem_map, List.mem_cons,
    List.not_mem_nil, or_false]
  constructor
  · rintro (((⟨w', hw', heq⟩ | h) | h) | h)
    · injection heq with h'
      rwa [h'] at hw'
    · exact absurd h (by simp)
    · split at h
      · rcases matchingBlock_effect_shapes _ h with ⟨g, d, hgd⟩ | ⟨g, hg⟩ | ⟨g, hg⟩ | ⟨g, hg⟩
        · exact absurd hgd (by simp)
        · exfalso
          apply hs1 g
          injection hg
        · exfalso
          apply hs2 g
          injection hg
        · exfalso
          apply hs3 g
          injection hg
      · exact absurd h (by simp)
    · exact absurd h (by simp)
  · intro hmem
    exact Or.inl (Or.inl (Or.inl ⟨w, hmem, rfl⟩))

theorem copyEff_mem_processRecord_iff {out : String} {fm : List (String × List String)}
    {ip : String → Option ImageMeta} {mp : String → MediaRes} {r : Row} {g : String} :
    (∃ d, Effect.copyEff g d ∈ processRecord out true fm ip mp r) ↔
      (rowIsCanvas r = true ∧ g ∈ matchedFiles fm r) := by
  simp only [processRecord, Bool.true_and, List.mem_append, List.mem_map, List.mem_cons,
    List.not_mem_nil, or_false]
  constructor
  · rintro ⟨d, (((⟨w', _, heq⟩ | h) | h) | h)⟩
    · exact absurd heq (by simp)
    · exact absurd h (by simp)
    · split at h
      · rename_i hcv
        refine ⟨hcv, ?_⟩
        unfold matchingBlock at h
        simp only [List.mem_append] at h
        rcases h with h | h
        · exact ((copyLoop_mem_copy _ _ g d).1 h).1
        · split at h
          · simp at h
          · simp at h
      · simp at h
    · exact absurd h (by simp)
  · rintro ⟨hcv, hmem⟩
    refine ⟨(out :: rewrittenParts r) ++ [String.mk (basenameL g.data)], ?_⟩
    refine Or.inl (Or.inr ?_)
    rw [if_pos hcv]
    unfold matchingBlock
    simp only [List.mem_append]
    exact Or.inl ((copyLoop_mem_copy _ _ g _).2 ⟨hmem, rfl⟩)

/-! ### Claim theorems -/

/-- C3: an audio canvas with index `n` matches a candidate file if and only if
the file's (lowercased) extension is `.mp3` and its lowercased basename ends
with the pattern `part`, one or more digits, optionally a dash and more
digits, then `.mp3`, whose first digit run has value `n` (standard integer
parsing, so leading zeros are dropped); in particular, for index 9 and the
candidates `Part09.mp3`, `Part9-1.mp3`, `Part10.mp3`, exactly the first two
are matched. -/
theorem spec_c3_audio_matching :
    (∀ (f : String) (n : Nat),
      audioFileMatches (some n) f = true ↔
        (extLower f = ".mp3" ∧ AudioSpecPattern (lowerBase f) n)) ∧
    audioFileMatches (some 9) "Part09.mp3" = true ∧
    audioFileMatches (some 9) "Part9-1.mp3" = true ∧
    audioFileMatches (some 9) "Part10.mp3" = false :=
  ⟨audioFileMatches_iff, by decide, by decide, by decide⟩

/-- C4: an image canvas with index `n` matches a candidate file if and only
if the file's lowercased extension is `.jpg` or `.jpeg` and its lowercased
basename ends with an underscore, one or more digits, and the extension,
the digit run parsing to exactly `n`; in particular, for index 1,
`BHC001_AF_01.JPG` is matched while `BHC001_AF_010.JPG` is not. -/
theorem spec_c4_image_matching :
    (∀ (f : String) (n : Nat),
      imageFileMatches (some n) f = true ↔
        ((extLower f = ".jpg" ∨ extLower f = ".jpeg") ∧
          ImageSpecPattern (lowerBase f) (extLower f).data n)) ∧
    imageFileMatches (some 1) "BHC001_AF_01.JPG" = true ∧
    imageFileMatches (some 1) "BHC001_AF_010.JPG" = false :=
  ⟨imageFileMatches_iff, by decide, by decide⟩

/-- C2 counterexample: the terminal segment `canvasx1` starts with `canvas`
and its digits form the integer 1, yet the code's index extraction
(`parseInt` after deleting the first run of `[_canvas]` characters) yields
`NaN` (modelled `none`), refuting "the index equals the integer formed by
the segment's digits for every terminal segment starting with `canvas`". -/
theorem spec_c2_counterexample :
    jsStartsWith "canvasx1" "canvas" = true ∧
    ("canvasx1".data.filter Char.isDigit) = ['1'] ∧
    digitsToNat ['1'] = 1 ∧
    canvasIndexRow (mkRow "audio/canvasx1") = none := by decide

/-- C2 amended: the canvas index is obtained by deleting the first maximal
run of characters drawn from `{_, c, a, n, v, s}` from the rewritten
terminal segment and parsing the leading digits of the remainder.  For
segments of the form `canvas` followed by digits only, the index equals the
value of that digit run; when the segment contains no digits at all the
index is undefined; and whenever the index is undefined no file is copied
for that canvas. -/
theorem spec_c2_canvas_index :
    (∀ ds : List Char, ds ≠ [] → (∀ c ∈ ds, c.isDigit = true) →
      canvasIndexOf ("_canvas" ++ String.mk ds) = some (digitsToNat ds)) ∧
    (∀ seg : String, (∀ c ∈ seg.data, c.isDigit = false) → canvasIndexOf seg = none) ∧
    (∀ (out : String) (fm : List (String × List String)) (ip : String → Option ImageMeta)
        (mp : String → MediaRes) (r : Row) (g : String) (d : List String),
      canvasIndexRow r = none →
      Effect.copyEff g d ∉ processRecord out true fm ip mp r) := by
  refine ⟨canvasIndexOf_marked_digits, fun seg h => canvasIndexOf_no_digit h, ?_⟩
  intro out fm ip mp r g d hidx hmem
  have h1 := copyEff_mem_processRecord_iff.1 ⟨d, hmem⟩
  have h2 := (mem_matchedFiles.1 h1.2).2
  rw [matchPredRow_none hidx g] at h2
  exact absurd h2 (by simp)

/-- C2 witness: the amended statement evaluated at concrete inputs. -/
theorem spec_c2_canvas_index_witness :
    canvasIndexOf ("_canvas" ++ String.mk ['1', '2']) = some (digitsToNat ['1', '2']) ∧
    canvasIndexOf "xyz" = none ∧
    Effect.copyEff "d/Part1.mp3" ["o"] ∉ processRecord "o" true [("d", ["d/Part1.mp3"])]
      (fun _ => none) (fun _ => MediaRes.probeFail) (mkRow "audio/canvas") :=
  ⟨spec_c2_canvas_index.1 ['1', '2'] (by decide) (by decide),
   spec_c2_canvas_index.2.1 "xyz" (by decide),
   spec_c2_canvas_index.2.2 "o" [("d", ["d/Part1.mp3"])] (fun _ => none)
     (fun _ => MediaRes.probeFail) (mkRow "audio/canvas") "d/Part1.mp3" ["o"] (by decide)⟩

/-- C5 counterexample: the terminal segment `canvasmanifest1` starts with
`canvas`, yet under the parent `manifest1` the manifest-inside-manifest
warning fires, because the code computes `isCanvas` and `isManifest` as two
independent booleans rather than in exclusive priority order. -/
theorem spec_c5_counterexample :
    jsStartsWith "canvasmanifest1" "canvas" = true ∧
    strContains "canvasmanifest1" "manifest" = true ∧
    Effect.warnEff (Warning.manifestNest "canvasmanifest1" "manifest1") ∈
      processRecord "o" false [] (fun _ => none) (fun _ => MediaRes.probeFail)
        (mkRow "manifest1/canvasmanifest1") := by decide

/-- C5 amended: the two role predicates are evaluated independently, so a
terminal segment that starts with `canvas` and does NOT contain `manifest`
never triggers the manifest-inside-manifest warning; a canvas-starting
segment that also contains `manifest` can trigger it. -/
theorem spec_c5_role_predicates :
    ∀ (out : String) (hi : Bool) (fm : List (String × List String))
      (ip : String → Option ImageMeta) (mp : String → MediaRes) (r : Row),
      jsStartsWith (lastSegment r) "canvas" = true →
      strContains (lastSegment r) "manifest" = false →
      ∀ a b, Effect.warnEff (Warning.manifestNest a b) ∉ processRecord out hi fm ip mp r := by
  intro out hi fm ip mp r _ hm a b hmem
  have hmem' := (warn_nest_mem_iff (by intro g; simp) (by intro g; simp) (by intro g; simp)).1 hmem
  unfold nestingWarnings at hmem'
  cases hps : parentSegment r with
  | none => rw [hps] at hmem'; simp at hmem'
  | some p =>
    rw [hps] at hmem'
    simp only [List.mem_append] at hmem'
    rcases hmem' with h | h
    · split at h
      · simp at h
      · simp at h
    · split at h
      · rename_i hcond
        have h1 : rowIsManifest r = true := by
          have h2 : (rowIsManifest r = true ∧ truthyStr p = true) ∧ strContains p "manifest" = true := by
            simpa using hcond
          exact h2.1.1
        unfold rowIsManifest at h1
        rw [hm] at h1
        exact absurd h1 (by simp)
      · simp at h

/-- C5 witness: the amended statement at a concrete canvas row. -/
theorem spec_c5_role_predicates_witness :
    Effect.warnEff (Warning.manifestNest "canvas1" "x") ∉
      processRecord "o" false [] (fun _ => none) (fun _ => MediaRes.probeFail)
        (mkRow "m/canvas1") :=
  spec_c5_role_predicates "o" false [] (fun _ => none) (fun _ => MediaRes.probeFail)
    (mkRow "m/canvas1") (by decide) (by decide) "canvas1" "x"

/-- C10: a row whose hierarchy has exactly one segment has no parent
segment, so neither nesting-rule warning is ever emitted for it. -/
theorem spec_c10_single_segment :
    ∀ (out : String) (hi : Bool) (fm : List (String × List String))
      (ip : String → Option ImageMeta) (mp : String → MediaRes) (r : Row),
      (hierarchyParts r).length = 1 →
      ∀ a b, Effect.warnEff (Warning.canvasNest a b) ∉ processRecord out hi fm ip mp r ∧
        Effect.warnEff (Warning.manifestNest a b) ∉ processRecord out hi fm ip mp r := by
  intro out hi fm ip mp r hlen a b
  have hps : parentSegment r = none := by
    unfold parentSegment
    rw [hlen]
    simp
  have hnw : nestingWarnings r = [] := by
    unfold nestingWarnings
    rw [hps]
  constructor <;>
    (intro hmem;
     have h1 := (warn_nest_mem_iff (by intro g; simp) (by intro g; simp)
       (by intro g; simp)).1 hmem;
     rw [hnw] at h1;
     simp at h1)

/-- C10 witness: a concrete single-segment canvas row. -/
theorem spec_c10_single_segment_witness :
    Effect.warnEff (Warning.canvasNest "x" "y") ∉
      processRecord "o" false [] (fun _ => none) (fun _ => MediaRes.probeFail)
        (mkRow "canvas1") ∧
    Effect.warnEff (Warning.manifestNest "x" "y") ∉
      processRecord "o" false [] (fun _ => none) (fun _ => MediaRes.probeFail)
        (mkRow "canvas1") :=
  spec_c10_single_segment "o" false [] (fun _ => none) (fun _ => MediaRes.probeFail)
    (mkRow "canvas1") (by decide) "x" "y"

theorem mkdir_mem_processRecord {out : String} {hi : Bool} {fm : List (String × List String)}
    {ip : String → Option ImageMeta} {mp : String → MediaRes} {r : Row} :
    Effect.mkdirEff (out :: rewrittenParts r) ∈ processRecord out hi fm ip mp r := by
  simp [processRecord]

theorem write_mem_processRecord {out : String} {hi : Bool} {fm : List (String × List String)}
    {ip : String → Option ImageMeta} {mp : String → MediaRes} {r : Row} :
    ∃ doc, Effect.writeFileEff ((out :: rewrittenParts r) ++ ["info.yml"]) doc ∈
      processRecord out hi fm ip mp r := by
  refine ⟨createInfoYml (if hi && rowIsCanvas r then
    (matchingBlock ip mp (out :: rewrittenParts r) fm r).2 else r), ?_⟩
  simp only [processRecord, List.mem_append, List.mem_cons]
  refine Or.inr (Or.inl ?_)
  split <;> simp

/-- C8 counterexample: the row `/canvas1` is a Canvas whose parent segment
(the empty string) is not a Manifest, yet no warning is emitted because the
JS truthiness guard `parentPart &&` skips empty parent segments; the
directory and the `info.yml` sidecar are still produced. -/
theorem spec_c8_counterexample :
    rowIsCanvas (mkRow "/canvas1") = true ∧
    parentSegment (mkRow "/canvas1") = some "" ∧
    strContains "" "manifest" = false ∧
    (∀ w, Effect.warnEff w ∉ processRecord "o" false [] (fun _ => none)
      (fun _ => MediaRes.probeFail) (mkRow "/canvas1")) ∧
    Effect.mkdirEff ["o", "", "_canvas1"] ∈ processRecord "o" false [] (fun _ => none)
      (fun _ => MediaRes.probeFail) (mkRow "/canvas1") ∧
    (∃ doc, Effect.writeFileEff ["o", "", "_canvas1", "info.yml"] doc ∈
      processRecord "o" false [] (fun _ => none) (fun _ => MediaRes.probeFail)
        (mkRow "/canvas1")) := by
  have heq : processRecord "o" false [] (fun _ => none) (fun _ => MediaRes.probeFail)
      (mkRow "/canvas1") =
      [Effect.mkdirEff ["o", "", "_canvas1"],
       Effect.writeFileEff ["o", "", "_canvas1", "info.yml"]
         ⟨none, none, none, none, none, none, none, none, none, none,
          none, none, none, none, none, none, none, none, none, none⟩] := by decide
  refine ⟨by decide, by decide, by decide, ?_, by decide, ?_⟩
  · intro w
    rw [heq]
    simp
  · exact ⟨⟨none, none, none, none, none, none, none, none, none, none,
      none, none, none, none, none, none, none, none, none, none⟩, by rw [heq]; simp⟩

/-- C8 amended: for a Row violating a nesting rule with a NONEMPTY parent
segment (a Canvas whose parent is nonempty and not a Manifest, or a Manifest
nested in a Manifest), processing is non-fatal: the corresponding nesting
warning is emitted, the directory is still created, and the `info.yml`
sidecar is still written.  (An empty parent segment is skipped by the JS
truthiness guard, per the counterexample.) -/
theorem spec_c8_nonfatal :
    ∀ (out : String) (hi : Bool) (fm : List (String × List String))
      (ip : String → Option ImageMeta) (mp : String → MediaRes) (r : Row) (p : String),
      parentSegment r = some p →
      ((rowIsCanvas r = true ∧ p ≠ "" ∧ strContains p "manifest" = false) ∨
       (rowIsManifest r = true ∧ strContains p "manifest" = true)) →
      ((Effect.warnEff (Warning.canvasNest (lastSegment r) p) ∈ processRecord out hi fm ip mp r ∨
        Effect.warnEff (Warning.manifestNest (lastSegment r) p) ∈ processRecord out hi fm ip mp r) ∧
       Effect.mkdirEff (out :: rewrittenParts r) ∈ processRecord out hi fm ip mp r ∧
       ∃ doc, Effect.writeFileEff ((out :: rewrittenParts r) ++ ["info.yml"]) doc ∈
         processRecord out hi fm ip mp r) := by
  intro out hi fm ip mp r p hps hviol
  refine ⟨?_, mkdir_mem_processRecord, write_mem_processRecord⟩
  rcases hviol with ⟨hcv, hpne, hpm⟩ | ⟨hmf, hpm⟩
  · refine Or.inl ((warn_nest_mem_iff (by intro g; simp) (by intro g; simp)
      (by intro g; simp)).2 ?_)
    unfold nestingWarnings
    rw [hps]
    have hcond : (rowIsCanvas r && truthyStr p && !strContains p "manifest") = true := by
      simp [hcv, truthyStr, hpne, hpm]
    simp [hcond]
  · refine Or.inr ((warn_nest_mem_iff (by intro g; simp) (by intro g; simp)
      (by intro g; simp)).2 ?_)
    unfold nestingWarnings
    rw [hps]
    have hpne : p ≠ "" := by
      intro h0
      rw [h0] at hpm
      exact absurd hpm (by decide)
    have hcond : (rowIsManifest r && truthyStr p && strContains p "manifest") = true := by
      simp [hmf, truthyStr, hpne, hpm]
    simp [hcond]

/-- C8 witness: the amended statement at the concrete row `root/canvas1`. -/
theorem spec_c8_nonfatal_witness :
    ((Effect.warnEff (Warning.canvasNest (lastSegment (mkRow "root/canvas1")) "root") ∈
        processRecord "o" false [] (fun _ => none) (fun _ => MediaRes.probeFail)
          (mkRow "root/canvas1") ∨
      Effect.warnEff (Warning.manifestNest (lastSegment (mkRow "root/canvas1")) "root") ∈
        processRecord "o" false [] (fun _ => none) (fun _ => MediaRes.probeFail)
          (mkRow "root/canvas1")) ∧
     Effect.mkdirEff ("o" :: rewrittenParts (mkRow "root/canvas1")) ∈
       processRecord "o" false [] (fun _ => none) (fun _ => MediaRes.probeFail)
         (mkRow "root/canvas1") ∧
     ∃ doc, Effect.writeFileEff (("o" :: rewrittenParts (mkRow "root/canvas1")) ++ ["info.yml"]) doc ∈
       processRecord "o" false [] (fun _ => none) (fun _ => MediaRes.probeFail)
         (mkRow "root/canvas1")) :=
  spec_c8_nonfatal "o" false [] (fun _ => none) (fun _ => MediaRes.probeFail)
    (mkRow "root/canvas1") "root" (by decide) (Or.inl ⟨by decide, by decide, by decide⟩)

/-- C7: for every canvas row, the rewritten terminal segment carries the
reserved `_` marker, and stripping the marker recovers the original
terminal segment text exactly. -/
theorem spec_c7_marker_roundtrip :
    ∀ r : Row, rowIsCanvas r = true →
      jsStartsWith ((rewrittenParts r).getLastD "") "_" = true ∧
      stripLeafMarker ((rewrittenParts r).getLastD "") = lastSegment r := by
  intro r hc
  unfold rewrittenParts
  rw [if_pos hc]
  have hlast : ((hierarchyParts r).dropLast ++ ["_" ++ lastSegment r]).getLastD "" =
      "_" ++ lastSegment r := by simp
  rw [hlast]
  have hdata : ("_" ++ lastSegment r).data = '_' :: (lastSegment r).data := by
    simp [String.data_append]
  constructor
  · unfold jsStartsWith
    rw [hdata]
    simp [List.isPrefixOf]
  · unfold stripLeafMarker
    rw [hdata]
    simp

/-- C7 witness: the marker round trip at the segment `canvas1`. -/
theorem spec_c7_marker_roundtrip_witness :
    jsStartsWith ((rewrittenParts (mkRow "canvas1")).getLastD "") "_" = true ∧
    stripLeafMarker ((rewrittenParts (mkRow "canvas1")).getLastD "") =
      lastSegment (mkRow "canvas1") :=
  spec_c7_marker_roundtrip (mkRow "canvas1") (by decide)

/-- C9: a file is copied for a canvas row exactly when the row is a Canvas,
the file satisfies the match predicate, and the file occurs in SOME bucket
of the asset index - the candidate pool is the union of all buckets, not a
per-directory scope. -/
theorem spec_c9_candidate_pool :
    ∀ (out : String) (fm : List (String × List String)) (ip : String → Option ImageMeta)
      (mp : String → MediaRes) (r : Row) (g : String),
      (∃ d, Effect.copyEff g d ∈ processRecord out true fm ip mp r) ↔
        (rowIsCanvas r = true ∧ matchPredRow r g = true ∧ ∃ pr ∈ fm, g ∈ pr.2) := by
  intro out fm ip mp r g
  rw [copyEff_mem_processRecord_iff]
  constructor
  · rintro ⟨hcv, hmem⟩
    obtain ⟨hpool, hpred⟩ := mem_matchedFiles.1 hmem
    exact ⟨hcv, hpred, hpool⟩
  · rintro ⟨hcv, hpred, hpool⟩
    exact ⟨hcv, mem_matchedFiles.2 ⟨hpool, hpred⟩⟩

theorem group3_isSome (r : Row) (k1 k2 k3 : String) :
    (group3 r k1 k2 k3).isSome = true ↔
      (getE r k1 ≠ "" ∧ getE r k2 ≠ "" ∧ getE r k3 ≠ "") := by
  unfold group3
  split
  · rename_i hcond
    simp only [Option.isSome_some]
    constructor
    · intro _
      have h2 : (¬getE r k1 = "" ∧ ¬getE r k2 = "") ∧ ¬getE r k3 = "" := by
        simpa [truthyStr] using hcond
      exact ⟨h2.1.1, h2.1.2, h2.2⟩
    · intro _
      trivial
  · rename_i hcond
    simp only [Option.isSome_none]
    constructor
    · intro h
      exact absurd h (by simp)
    · rintro ⟨h1, h2, h3⟩
      exfalso
      exact hcond (by simp [truthyStr, h1, h2, h3])

/-- C6: each compound-key group appears in the metadata document if and only
if every required sub-key of the group is present and non-empty on the row;
a partial group is entirely absent. -/
theorem spec_c6_compound_groups :
    ∀ r : Row,
      ((createInfoYml r).provider.isSome = true ↔
        (getE r "provider.id" ≠ "" ∧ getE r "provider.type" ≠ "" ∧
          getE r "provider.label" ≠ "")) ∧
      ((createInfoYml r).homepage.isSome = true ↔
        (getE r "homepage.id" ≠ "" ∧ getE r "homepage.type" ≠ "" ∧
          getE r "homepage.label" ≠ "")) ∧
      ((createInfoYml r).seeAlso.isSome = true ↔
        (getE r "seeAlso.id" ≠ "" ∧ getE r "seeAlso.type" ≠ "" ∧
          getE r "seeAlso.label" ≠ "")) ∧
      ((createInfoYml r).rendering.isSome = true ↔
        (getE r "rendering.id" ≠ "" ∧ getE r "rendering.type" ≠ "" ∧
          getE r "rendering.label" ≠ "")) ∧
      ((createInfoYml r).start.isSome = true ↔
        (getE r "start.id" ≠ "" ∧ getE r "start.type" ≠ "" ∧
          getE r "start.label" ≠ "")) ∧
      ((createInfoYml r).supplementary.isSome = true ↔
        (getE r "supplementary.id" ≠ "" ∧ getE r "supplementary.type" ≠ "" ∧
          getE r "supplementary.label" ≠ "")) ∧
      ((createInfoYml r).services.isSome = true ↔
        (getE r "services.id" ≠ "" ∧ getE r "services.type" ≠ "" ∧
          getE r "services.profile" ≠ "")) ∧
      ((createInfoYml r).requiredStatement.isSome = true ↔
        (getE r "requiredStatement.label" ≠ "" ∧ getE r "requiredStatement.value" ≠ "")) := by
  intro r
  refine ⟨group3_isSome r _ _ _, group3_isSome r _ _ _, group3_isSome r _ _ _,
    group3_isSome r _ _ _, group3_isSome r _ _ _, group3_isSome r _ _ _,
    group3_isSome r _ _ _, ?_⟩
  show (if truthyStr (getE r "requiredStatement.label")
      && truthyStr (getE r "requiredStatement.value") then
      some (getE r "requiredStatement.label", getE r "requiredStatement.value")
    else none).isSome = true ↔ _
  split
  · rename_i hcond
    simp only [Option.isSome_some]
    constructor
    · intro _
      have h2 : ¬getE r "requiredStatement.label" = "" ∧
          ¬getE r "requiredStatement.value" = "" := by
        simpa [truthyStr] using hcond
      exact h2
    · intro _
      trivial
  · rename_i hcond
    simp only [Option.isSome_none]
    constructor
    · intro h
      exact absurd h (by simp)
    · rintro ⟨h1, h2⟩
      exfalso
      exact hcond (by simp [truthyStr, h1, h2])

/-- C1: for every file and row, `addFileMetadata` never changes a
width/height/duration field that is explicitly set to a non-empty CSV value;
and when such a field is unset and the probe of the (matched) file succeeds
with a nonzero value, the metadata document built from the updated row
contains exactly the probed value. -/
theorem spec_c1_metadata_precedence :
    ∀ (ip : String → Option ImageMeta) (mp : String → MediaRes) (f : String) (r : Row),
      (∀ s, r.width = WCell.fromCsv s → s ≠ "" →
        ((addFileMetadata ip mp f r).1).width = WCell.fromCsv s) ∧
      (∀ s, r.height = WCell.fromCsv s → s ≠ "" →
        ((addFileMetadata ip mp f r).1).height = WCell.fromCsv s) ∧
      (∀ s, r.duration = DCell.fromCsv s → s ≠ "" →
        ((addFileMetadata ip mp f r).1).duration = DCell.fromCsv s) ∧
      (∀ m w, extLower f ∈ imageProbeExts → ip f = some m → m.width = some w → w ≠ 0 →
        r.width = WCell.unset →
        (createInfoYml ((addFileMetadata ip mp f r).1)).width = some (some w)) ∧
      (∀ m h, extLower f ∈ imageProbeExts → ip f = some m → m.height = some h → h ≠ 0 →
        r.height = WCell.unset →
        (createInfoYml ((addFileMetadata ip mp f r).1)).height = some (some h)) ∧
      (∀ d, extLower f ∈ audioProbeExts → mp f = MediaRes.ok (some d) → d ≠ 0 →
        r.duration = DCell.unset →
        (createInfoYml ((addFileMetadata ip mp f r).1)).duration = some (some d)) := by
  intro ip mp f r
  have hdisj : extLower f ∈ audioProbeExts → extLower f ∉ imageProbeExts := by
    intro hext hin
    simp only [audioProbeExts, List.mem_cons, List.not_mem_nil, or_false] at hext
    simp only [imageProbeExts, List.mem_cons, List.not_mem_nil, or_false] at hin
    rcases hext with h | h | h | h <;> rw [h] at hin <;> simp at hin
  refine ⟨?_, ?_, ?_, ?_, ?_, ?_⟩
  · intro s hws hsne
    simp only [addFileMetadata]
    by_cases h1 : extLower f ∈ imageProbeExts
    · rw [if_pos h1]
      cases hip : ip f with
      | some m => simp [hws, WCell.truthy, truthyStr, hsne]
      | none => simp [hws]
    · rw [if_neg h1]
      by_cases h2 : extLower f ∈ audioProbeExts
      · rw [if_pos h2]
        cases hmp : mp f with
        | ok d => simp [hws]
        | noStreams => simp [hws]
        | probeFail => simp [hws]
      · rw [if_neg h2]
        simp [hws]
  · intro s hws hsne
    simp only [addFileMetadata]
    by_cases h1 : extLower f ∈ imageProbeExts
    · rw [if_pos h1]
      cases hip : ip f with
      | some m => simp [hws, WCell.truthy, truthyStr, hsne]
      | none => simp [hws]
    · rw [if_neg h1]
      by_cases h2 : extLower f ∈ audioProbeExts
      · rw [if_pos h2]
        cases hmp : mp f with
        | ok d => simp [hws]
        | noStreams => simp [hws]
        | probeFail => simp [hws]
      · rw [if_neg h2]
        simp [hws]
  · intro s hws hsne
    simp only [addFileMetadata]
    by_cases h1 : extLower f ∈ imageProbeExts
    · rw [if_pos h1]
      cases hip : ip f with
      | some m => simp [hws]
      | none => simp [hws]
    · rw [if_neg h1]
      by_cases h2 : extLower f ∈ audioProbeExts
      · rw [if_pos h2]
        cases hmp : mp f with
        | ok d => simp [hws, DCell.truthy, truthyStr, hsne]
        | noStreams => simp [hws]
        | probeFail => simp [hws]
      · rw [if_neg h2]
        simp [hws]
  · intro m w hext hip hw hwz hunset
    have hafm : ((addFileMetadata ip mp f r).1).width = WCell.fromProbe (some w) := by
      simp only [addFileMetadata]
      rw [if_pos hext, hip]
      simp [hunset, WCell.truthy, hw]
    simp only [createInfoYml]
    rw [hafm]
    simp [WCell.truthy, jsParseIntOfW, hwz]
  · intro m h hext hip hh hhz hunset
    have hafm : ((addFileMetadata ip mp f r).1).height = WCell.fromProbe (some h) := by
      simp only [addFileMetadata]
      rw [if_pos hext, hip]
      simp [hunset, WCell.truthy, hh]
    simp only [createInfoYml]
    rw [hafm]
    simp [WCell.truthy, jsParseIntOfW, hhz]
  · intro d hext hmp hdz hunset
    have h1 : extLower f ∉ imageProbeExts := hdisj hext
    have hafm : ((addFileMetadata ip mp f r).1).duration = DCell.fromProbe (some d) := by
      simp only [addFileMetadata]
      rw [if_neg h1, if_pos hext, hmp]
      simp [hunset, DCell.truthy]
    simp only [createInfoYml]
    rw [hafm]
    simp [DCell.truthy, jsParseFloatOfD, hdz]

/-- C1 witness: precedence and probed-value propagation at concrete rows,
files and probe oracles. -/
theorem spec_c1_metadata_precedence_witness :
    ((addFileMetadata (fun _ => some ⟨some 640, some 480⟩) (fun _ => MediaRes.ok (some 15))
        "a.jpg" { mkRow "x" with width := WCell.fromCsv "9" }).1).width = WCell.fromCsv "9" ∧
    (createInfoYml ((addFileMetadata (fun _ => some ⟨some 640, some 480⟩)
        (fun _ => MediaRes.ok (some 15)) "a.jpg" (mkRow "x")).1)).width = some (some 640) ∧
    (createInfoYml ((addFileMetadata (fun _ => none) (fun _ => MediaRes.ok (some 15))
        "a.mp3" (mkRow "x")).1)).duration = some (some 15) :=
  ⟨(spec_c1_metadata_precedence (fun _ => some ⟨some 640, some 480⟩)
      (fun _ => MediaRes.ok (some 15)) "a.jpg"
      { mkRow "x" with width := WCell.fromCsv "9" }).1 "9" rfl (by decide),
   (spec_c1_metadata_precedence (fun _ => some ⟨some 640, some 480⟩)
      (fun _ => MediaRes.ok (some 15)) "a.jpg" (mkRow "x")).2.2.2.1
      ⟨some 640, some 480⟩ 640 (by decide) rfl rfl (by decide) rfl,
   (spec_c1_metadata_precedence (fun _ => none) (fun _ => MediaRes.ok (some 15))
      "a.mp3" (mkRow "x")).2.2.2.2.2 15 (by decide) rfl (by decide) rfl⟩
